import Mathlib

/-!
Shallow embedding of the k-NN similarity-graph engine in
`src/dreams/utils/data.py`: the `CSRKNN` sparse adjacency store
(construction from edge lists, NGT index search results, and npz archives,
neighbor queries, edge-list export) and the `condense_dreams_knn`
threshold clusterer.  Weights are modelled as rationals; the similarity
`1 - cos_dist(embs[a], embs[b])` recomputed from embeddings is abstracted
as a function `sim : ℕ → ℕ → ℚ`.
-/
/-! ## The weighted graph consumed by `condense_dreams_knn`

The clusterer receives an igraph-style undirected weighted graph (the
output of `CSRKNN.to_igraph(directed=False)`).  We model it as a vertex
count together with an edge list; `neighbors`, `degree` and the
`graph.es[graph.get_eid(u, v)]['weight']` lookup are derived from the
edge list the way igraph computes them on an undirected graph. -/
structure WGraph where
  vcount : ℕ
  edges : List (ℕ × ℕ × ℚ)

namespace WGraph

/-- Model of igraph `graph.neighbors(v)` on an undirected graph: every
incidence of `v` in the edge list contributes the opposite endpoint
(a self-loop contributes `v` twice, as in igraph). -/
def neighbors (g : WGraph) (v : ℕ) : List ℕ :=
  g.edges.foldr (fun e acc =>
    (if e.1 = v then [e.2.1] else []) ++ (if e.2.1 = v then [e.1] else []) ++ acc) []

/-- Model of igraph `graph.degree()[v]`: the number of incidences. -/
def degree (g : WGraph) (v : ℕ) : ℕ := (g.neighbors v).length

/-- Model of `graph.es[graph.get_eid(u, v)]['weight']` on an undirected
graph: the weight of the first edge joining `u` and `v` in either
orientation (`0` if there is none; `get_eid` would raise there, but the
clusterer only looks up pairs returned by `neighbors`). -/
def weight (g : WGraph) (u v : ℕ) : ℚ :=
  match g.edges.find? (fun e => (e.1 == u && e.2.1 == v) || (e.1 == v && e.2.1 == u)) with
  | some e => e.2.2
  | none => 0

/-- All node ids mentioned by the graph: the declared vertices plus every
edge endpoint.  Used to bound the breadth-first search. -/
def nodeSet (g : WGraph) : Finset ℕ :=
  g.edges.foldr (fun e acc => insert e.1 (insert e.2.1 acc)) (Finset.range g.vcount)

/-- The comparison realised by Python's stable
`sorted(range(vcount), key=lambda i: degrees[i], reverse=True)`:
descending degree, with ties broken by ascending node id (stability of
the sort on the ascending-id input). -/
def vertexLe (g : WGraph) (a b : ℕ) : Prop :=
  g.degree b < g.degree a ∨ (g.degree a = g.degree b ∧ a ≤ b)

instance (g : WGraph) : DecidableRel g.vertexLe := fun a b =>
  inferInstanceAs (Decidable (_ ∨ _))

instance (g : WGraph) : IsTotal ℕ g.vertexLe where
  total a b := by
    unfold vertexLe
    rcases Nat.lt_trichotomy (g.degree a) (g.degree b) with h | h | h
    · exact Or.inr (Or.inl h)
    · rcases Nat.le_total a b with hab | hab
      · exact Or.inl (Or.inr ⟨h, hab⟩)
      · exact Or.inr (Or.inr ⟨h.symm, hab⟩)
    · exact Or.inl (Or.inl h)

instance (g : WGraph) : IsTrans ℕ g.vertexLe where
  trans a b c hab hbc := by
    unfold vertexLe at *
    rcases hab with h1 | ⟨h1, h1i⟩ <;> rcases hbc with h2 | ⟨h2, h2i⟩
    · exact Or.inl (h2.trans h1)
    · exact Or.inl (h2 ▸ h1)
    · exact Or.inl (h1 ▸ h2)
    · exact Or.inr ⟨h1.trans h2, h1i.trans h2i⟩

instance (g : WGraph) : IsRefl ℕ g.vertexLe where
  refl a := Or.inr ⟨rfl, Nat.le_refl a⟩

/-- The node processing order of `condense_dreams_knn`:
`sorted(list(range(graph.vcount())), key=lambda i: degrees[i], reverse=True)`. -/
def sortedVertices (g : WGraph) : List ℕ :=
  List.insertionSort g.vertexLe (List.range g.vcount)

end WGraph

/-! ## The clusterer `condense_dreams_knn(graph, thld, embs, logger)`

State of the traversal: the `visited` set, the cluster being grown, and
the BFS queue.  `scanNbrs` is the inner
`for neighbor in graph.neighbors(current_node)` loop; `bfs` is the
`while queue` loop; `condenseGo` is the outer `for node in vertices`
loop (it also returns the final `visited` set, which the Python code
keeps internal). -/
def scanNbrs (g : WGraph) (thld : ℚ) (sim : ℕ → ℕ → ℚ) (seed cur : ℕ) :
    List ℕ → Finset ℕ → List ℕ → List ℕ → Finset ℕ × List ℕ × List ℕ
  | [], visited, cluster, queue => (visited, cluster, queue)
  | nb :: rest, visited, cluster, queue =>
    if nb ∈ visited then
      scanNbrs g thld sim seed cur rest visited cluster queue
    else if thld ≤ g.weight cur nb ∧ (cur = seed ∨ thld ≤ sim seed nb) then
      scanNbrs g thld sim seed cur rest (insert nb visited) (cluster ++ [nb]) (queue ++ [nb])
    else
      scanNbrs g thld sim seed cur rest visited cluster queue

/-- The `while queue:` breadth-first loop of `condense_dreams_knn`
(`queue.pop(0)`, then scan the popped node's neighbors, appending
newly accepted ones to `visited`, the current cluster, and the queue). -/
def bfs (g : WGraph) (thld : ℚ) (sim : ℕ → ℕ → ℚ) (seed : ℕ) :
    List ℕ → Finset ℕ → List ℕ → Finset ℕ × List ℕ
  | [], visited, cluster => (visited, cluster)
  | cur :: rest, visited, cluster =>
    bfs g thld sim seed
      (scanNbrs g thld sim seed cur (g.neighbors cur) visited cluster rest).2.2
      (scanNbrs g thld sim seed cur (g.neighbors cur) visited cluster rest).1
      (scanNbrs g thld sim seed cur (g.neighbors cur) visited cluster rest).2.1
termination_by queue visited => (g.nodeSet \ visited).card + queue.length
decreasing_by
  have hnbr : ∀ es : List (ℕ × ℕ × ℚ), ∀ base : Finset ℕ, ∀ x : ℕ,
      x ∈ es.foldr (fun e acc =>
        (if e.1 = cur then [e.2.1] else []) ++ (if e.2.1 = cur then [e.1] else []) ++ acc) [] →
      x ∈ es.foldr (fun e acc => insert e.1 (insert e.2.1 acc)) base := by
    intro es
    induction es with
    | nil => intro base x hx; simp at hx
    | cons e es ih =>
      intro base x hx
      simp only [List.foldr_cons, List.mem_append] at hx
      simp only [List.foldr_cons, Finset.mem_insert]
      rcases hx with (hx | hx) | hx
      · by_cases he : e.1 = cur
        · simp [he] at hx
          subst hx
          simp
        · simp [he] at hx
      · by_cases he : e.2.1 = cur
        · simp [he] at hx
          subst hx
          simp
        · simp [he] at hx
      · exact Or.inr (Or.inr (ih base x hx))
  have key : ∀ (nbs : List ℕ), (∀ x ∈ nbs, x ∈ g.nodeSet) →
      ∀ (visited2 : Finset ℕ) (cluster2 queue2 : List ℕ),
      (g.nodeSet \ (scanNbrs g thld sim seed cur nbs visited2 cluster2 queue2).1).card
        + (scanNbrs g thld sim seed cur nbs visited2 cluster2 queue2).2.2.length
      ≤ (g.nodeSet \ visited2).card + queue2.length := by
    intro nbs
    induction nbs with
    | nil =>
      intro hmem visited2 cluster2 queue2
      simp [scanNbrs]
    | cons nb rest2 ih =>
      intro hmem visited2 cluster2 queue2
      by_cases hv : nb ∈ visited2
      · rw [scanNbrs, if_pos hv]
        exact ih (fun x hx => hmem x (List.mem_cons_of_mem _ hx)) visited2 cluster2 queue2
      · by_cases hadm : thld ≤ g.weight cur nb ∧ (cur = seed ∨ thld ≤ sim seed nb)
        · rw [scanNbrs, if_neg hv, if_pos hadm]
          refine le_trans (ih (fun x hx => hmem x (List.mem_cons_of_mem _ hx))
            (insert nb visited2) (cluster2 ++ [nb]) (queue2 ++ [nb])) ?_
          have hsd : g.nodeSet \ insert nb visited2 = (g.nodeSet \ visited2).erase nb := by
            ext x
            simp [Finset.mem_sdiff, Finset.mem_erase, Finset.mem_insert]
            tauto
          have hnbS : nb ∈ g.nodeSet \ visited2 :=
            Finset.mem_sdiff.mpr ⟨hmem nb (List.mem_cons_self _ _), hv⟩
          rw [hsd, Finset.card_erase_of_mem hnbS, List.length_append]
          have hpos : 0 < (g.nodeSet \ visited2).card := Finset.card_pos.mpr ⟨nb, hnbS⟩
          simp only [List.length_cons, List.length_nil]
          omega
        · rw [scanNbrs, if_neg hv, if_neg hadm]
          exact ih (fun x hx => hmem x (List.mem_cons_of_mem _ hx)) visited2 cluster2 queue2
  have h := key (g.neighbors cur) (fun x hx => hnbr g.edges (Finset.range g.vcount) x hx)
    visited cluster rest
  simp only [List.length_cons]
  omega

/-- The outer `for node in tqdm(vertices, ...):` loop of
`condense_dreams_knn`: skip visited nodes, otherwise start a cluster
`[node]`, mark it visited, BFS from it, and append the finished cluster.
Returns the cluster list together with the final `visited` set (the
Python code keeps `visited` internal and returns only `clusters`). -/
def condenseGo (g : WGraph) (thld : ℚ) (sim : ℕ → ℕ → ℚ) :
    List ℕ → Finset ℕ → List (List ℕ) → List (List ℕ) × Finset ℕ
  | [], visited, clusters => (clusters, visited)
  | node :: rest, visited, clusters =>
    if node ∈ visited then
      condenseGo g thld sim rest visited clusters
    else
      condenseGo g thld sim rest
        (bfs g thld sim node [node] (insert node visited) [node]).1
        (clusters ++ [(bfs g thld sim node [node] (insert node visited) [node]).2])

/-- Model of `condense_dreams_knn(graph, thld, embs, logger)`.  The
similarity `1 - cos_dist(embs[a], embs[b])` recomputed from raw
embeddings in the transitivity guard is abstracted as `sim a b`; the
logger only feeds a progress bar and is dropped. -/
def condense_dreams_knn (g : WGraph) (thld : ℚ) (sim : ℕ → ℕ → ℚ) : List (List ℕ) :=
  (condenseGo g thld sim g.sortedVertices ∅ []).1

/-! ## Concrete data for worked examples

Rationals are written with the explicit `Rat` constructor so that the
examples evaluate inside `decide`. -/
def q110 : ℚ := ⟨1, 10, by decide, by decide⟩

def q910 : ℚ := ⟨9, 10, by decide, by decide⟩

def q45 : ℚ := ⟨4, 5, by decide, by decide⟩

def qhalf : ℚ := ⟨1, 2, by decide, by decide⟩

def q14 : ℚ := ⟨1, 4, by decide, by decide⟩

def q34 : ℚ := ⟨3, 4, by decide, by decide⟩

def qtwo : ℚ := ⟨2, 1, by decide, by decide⟩

/-- Two nodes joined by one edge of similarity `9/10`. -/
def gW1 : WGraph := ⟨2, [(0, 1, q910)]⟩

/-- Three nodes: edges `(0,1)` and `(1,2)` of similarity `9/10`, edge
`(0,2)` of similarity `1/10`. -/
def gW3 : WGraph := ⟨3, [(0, 1, q910), (0, 2, q110), (1, 2, q910)]⟩

/-- A symmetric similarity: `9/10` for the pair `{0,1}`, else `1/10`. -/
def simW (a b : ℕ) : ℚ := if a + b = 1 then q910 else q110

/-- The seed-ordering key described by the spec, stated from the spec's
words for comparison with the code: a node's degree in the similarity
graph `already filtered to edges with weight ≥ threshold`.  The code
(`degrees = graph.degree()`) ranks nodes by their degree in the
unfiltered input graph instead. -/
def specFilteredDegree (g : WGraph) (thld : ℚ) (v : ℕ) : ℕ :=
  WGraph.degree ⟨g.vcount, g.edges.filter (fun e => decide (thld ≤ e.2.2))⟩ v

/-! ## The sparse store `CSRKNN`

A stored matrix is modelled by its shape (`n_nodes`, the row count of
the square matrix) and its list of stored entries `(row, col, value)` in
canonical CSR order (rows ascending, columns ascending within a row).
Explicit zeros are stored entries like any other. -/
/-- One stored entry `(row, col, value)`. -/
abbrev Entry := ℕ × ℕ × ℚ

/-- The `(row, col)` key of an entry. -/
def entryKey (e : Entry) : ℕ × ℕ := (e.1, e.2.1)

/-- Strict lexicographic order on `(row, col)` keys: the storage order of
a canonical CSR matrix. -/
def keyLt (a b : ℕ × ℕ) : Prop := a.1 < b.1 ∨ (a.1 = b.1 ∧ a.2 < b.2)

/-- Reflexive lexicographic order on keys, used for sorting. -/
def keyLe (a b : ℕ × ℕ) : Prop := a.1 < b.1 ∨ (a.1 = b.1 ∧ a.2 ≤ b.2)

instance : DecidableRel keyLt := fun a b => inferInstanceAs (Decidable (_ ∨ _))

instance : DecidableRel keyLe := fun a b => inferInstanceAs (Decidable (_ ∨ _))

instance : IsTotal (ℕ × ℕ) keyLe where
  total a b := by
    unfold keyLe
    rcases Nat.lt_trichotomy a.1 b.1 with h | h | h
    · exact Or.inl (Or.inl h)
    · rcases Nat.le_total a.2 b.2 with h2 | h2
      · exact Or.inl (Or.inr ⟨h, h2⟩)
      · exact Or.inr (Or.inr ⟨h.symm, h2⟩)
    · exact Or.inr (Or.inl h)

instance : IsTrans (ℕ × ℕ) keyLe where
  trans a b c hab hbc := by
    unfold keyLe at *
    rcases hab with h1 | ⟨h1, h1i⟩ <;> rcases hbc with h2 | ⟨h2, h2i⟩
    · exact Or.inl (h1.trans h2)
    · exact Or.inl (h2 ▸ h1)
    · exact Or.inl (h1 ▸ h2)
    · exact Or.inr ⟨h1.trans h2, h1i.trans h2i⟩

instance : IsAntisymm (ℕ × ℕ) keyLe where
  antisymm a b hab hba := by
    unfold keyLe at *
    rcases hab with h1 | ⟨h1, h1i⟩ <;> rcases hba with h2 | ⟨h2, h2i⟩
    · exact absurd h2 (Nat.lt_asymm h1)
    · exact absurd h1 (by omega)
    · exact absurd h2 (by omega)
    · exact Prod.ext h1 (Nat.le_antisymm h1i h2i)

/-- Model of `scipy.sparse.csr_matrix((w, (s, t)), shape)` and of
`csr_matrix((data, (row, col)), shape)`: the COO triples are converted
to canonical CSR form.  Entries sharing a `(row, col)` key are summed,
the keys are sorted lexicographically, and explicit zeros are kept. -/
def cooToCsr (es : List Entry) : List Entry :=
  (List.insertionSort keyLe ((es.map entryKey).dedup)).map
    (fun k => (k.1, k.2,
      ((es.filter (fun e => entryKey e == k)).map (fun e => e.2.2)).sum))

/-- The weight transform applied to one stored value by
`CSRKNN.__init__`: the mask `csr.data > 0` selects the entry, then
`data = 1 - data`; non-positive stored values (in particular explicit
zeros) are untouched. -/
def oneMinusVal (v : ℚ) : ℚ := if 0 < v then 1 - v else v

/-- The in-place transform `self.csr.data[edge_mask] = 1 - self.csr.data[edge_mask]`
over the stored entries (`edge_mask = csr.data > 0`). -/
def oneMinusData (es : List Entry) : List Entry :=
  es.map (fun e => (e.1, e.2.1, oneMinusVal e.2.2))

/-- The slice `csr.indices[indptr[i]:indptr[i+1]]` paired with
`csr.data[indptr[i]:indptr[i+1]]`: on a canonical matrix this is the
block of entries with row index `i`. -/
def rowEntries (es : List Entry) (i : ℕ) : List (ℕ × ℚ) :=
  (es.filter (fun e => e.1 == i)).map (fun e => (e.2.1, e.2.2))

/-- `CSRKNN.neighbors(i, sort, exclude_self_loops)` as a single list of
`(neighbor, weight)` pairs.  `sort` reorders by `np.argsort(sims)[::-1]`,
i.e. descending weight (tie order is unspecified in the source; a stable
descending sort is used here). -/
def neighborsList (es : List Entry) (i : ℕ) (sort excl : Bool) : List (ℕ × ℚ) :=
  let l0 := rowEntries es i
  let l1 := if excl then l0.filter (fun p => p.1 != i) else l0
  if sort then List.insertionSort (fun a b : ℕ × ℚ => b.2 ≤ a.2) l1 else l1

structure CSRKNN where
  n_nodes : ℕ
  entries : List Entry
  k : ℕ

namespace CSRKNN

/-- `CSRKNN.__init__(csr, one_minus_weights=True)`.  The constructor
applies the one-minus transform (by default), then reads
`self.k = len(self.neighbors(0)[0])`; on a matrix with zero rows that
read (`indptr[1]`) is out of bounds and raises, so construction yields
`none`.  `n_edges = csr.nnz` is the stored-entry count
(`CSRKNN.n_edges` below). -/
def ofCsr (n : ℕ) (es : List Entry) (one_minus_weights : Bool) : Option CSRKNN :=
  let data := if one_minus_weights then oneMinusData es else es
  if 0 < n then
    some { n_nodes := n, entries := data, k := (neighborsList data 0 true true).length }
  else none

/-- `self.n_edges = self.csr.nnz`: the number of stored entries,
self-loops and explicit zeros included. -/
def n_edges (A : CSRKNN) : ℕ := A.entries.length

/-- `CSRKNN.neighbors(i, sort=True, exclude_self_loops=True)`: the pair
of parallel arrays `(nns, sims)`. -/
def neighbors (A : CSRKNN) (i : ℕ) : List ℕ × List ℚ :=
  ((neighborsList A.entries i true true).map Prod.fst,
   (neighborsList A.entries i true true).map Prod.snd)

/-- The stored weight at `(r, c)`, when such an entry exists. -/
def entryAt (A : CSRKNN) (r c : ℕ) : Option ℚ :=
  (A.entries.find? (fun e => e.1 == r && e.2.1 == c)).map (fun e => e.2.2)

/-- `CSRKNN.from_edge_list(s, t, w)`:
`n_nodes = max(s.max(), t.max()) + 1`, the CSR matrix is built from the
COO triples, and the constructor runs with its default
`one_minus_weights=True`.  Empty input makes `s.max()` raise on a
zero-size array, and mismatched lengths make `csr_matrix` raise, so both
yield `none`. -/
def from_edge_list (s t : List ℕ) (w : List ℚ) : Option CSRKNN :=
  if s.length = t.length ∧ t.length = w.length ∧ s ≠ [] then
    CSRKNN.ofCsr (max (s.foldr max 0) (t.foldr max 0) + 1)
      (cooToCsr (s.zip (t.zip w))) true
  else none

/-- `CSRKNN.to_edge_list(one_minus_weights=False)`: concatenates, for
`i` in `range(n_nodes)`, the pairs from `neighbors(i, sort=False)` (the
default `exclude_self_loops=True` applies), tagging each with source
`i`; when requested, `sims = 1 - sims` is applied to every exported
weight unconditionally. -/
def to_edge_list (A : CSRKNN) (one_minus_weights : Bool) : List Entry :=
  (List.range A.n_nodes).flatMap (fun i =>
    (neighborsList A.entries i false true).map (fun p =>
      (i, p.1, if one_minus_weights then 1 - p.2 else p.2)))

/-- `CSRKNN.to_npz(pth)`: the archive holds the COO triples of the
stored matrix (`data`, `row`, `col`) together with `shape`. -/
def to_npz (A : CSRKNN) : List Entry × ℕ := (A.entries, A.n_nodes)

/-- `CSRKNN.from_npz(pth, one_minus_weights=False)`: rebuild the CSR
matrix from the stored coordinate arrays (an index outside the stored
shape makes `csr_matrix` raise) and run the constructor. -/
def from_npz (es : List Entry) (n : ℕ) (one_minus_weights : Bool) : Option CSRKNN :=
  if ∀ e ∈ es, e.1 < n ∧ e.2.1 < n then CSRKNN.ofCsr n (cooToCsr es) one_minus_weights
  else none

end CSRKNN

/-- The external NGT index collaborator of `from_ngt_index`: an object
count and the results of `ngt_index.search(ngt_index.get_object(i), k+1)`
(the query object is identified by its id). -/
structure NGTIndex where
  numObjects : ℕ
  search : ℕ → ℕ → List (ℕ × ℚ)

/-- `CSRKNN.from_ngt_index(ngt_index, k, one_minus_for_weights=False)`:
for every object, query `k + 1` nearest neighbors, drop the first
(self) hit, and extend the parallel arrays (`knn_i` receives exactly `k`
copies of `i`); the arrays then go through `from_edge_list`. -/
def CSRKNN.from_ngt_index (idx : NGTIndex) (k : ℕ) (one_minus_for_weights : Bool) :
    Option CSRKNN :=
  let s := (List.range idx.numObjects).flatMap (fun i => List.replicate k i)
  let t := (List.range idx.numObjects).flatMap
    (fun i => ((idx.search i (k + 1)).drop 1).map Prod.fst)
  let w0 := (List.range idx.numObjects).flatMap
    (fun i => ((idx.search i (k + 1)).drop 1).map Prod.snd)
  CSRKNN.from_edge_list s t (if one_minus_for_weights then w0.map (fun x => 1 - x) else w0)

/-- Option-level neighbor query, for stating concrete examples. -/
def neighborsOpt (o : Option CSRKNN) (i : ℕ) : Option (List ℕ × List ℚ) :=
  o.map (fun A => A.neighbors i)

/-- Option-level entry lookup, for stating concrete examples. -/
def entryAtOpt (o : Option CSRKNN) (r c : ℕ) : Option ℚ :=
  o.bind (fun A => A.entryAt r c)

/-- The neighbor pairs of node `i` as a multiset (empty when construction
failed), for stating order-insensitive facts. -/
def neighborsMultisetOpt (o : Option CSRKNN) (i : ℕ) : Multiset (ℕ × ℚ) :=
  o.elim 0 (fun A => ((A.neighbors i).1.zip (A.neighbors i).2 : List (ℕ × ℚ)))

/-- A store holding a weight in `(0,1)`, an explicit zero, and a weight
of exactly `1` side by side. -/
def esW5 : List Entry := [(0, 0, qhalf), (1, 1, (0 : ℚ)), (2, 2, (1 : ℚ))]

def AW10 : CSRKNN := { n_nodes := 2, entries := [(0, 0, qhalf), (0, 1, q910)], k := 1 }

def AW6 : CSRKNN := { n_nodes := 2, entries := [(0, 1, q14), (1, 0, qhalf)], k := 1 }

/-! ## Theorems -/

theorem scanNbrs_spec (g : WGraph) (thld : ℚ) (sim : ℕ → ℕ → ℚ) (seed cur : ℕ)
    (nbs : List ℕ) (visited : Finset ℕ) (cluster queue : List ℕ) :
    ∃ d : List ℕ,
      scanNbrs g thld sim seed cur nbs visited cluster queue
        = (visited ∪ d.toFinset, cluster ++ d, queue ++ d)
      ∧ d.Nodup
      ∧ (∀ x ∈ d, x ∉ visited)
      ∧ (∀ x ∈ d, x ∈ nbs)
      ∧ (∀ x ∈ d, thld ≤ g.weight cur x ∧ (cur = seed ∨ thld ≤ sim seed x)) := by
  induction nbs generalizing visited cluster queue with
  | nil =>
    exact ⟨[], by simp [scanNbrs], by simp, by simp, by simp, by simp⟩
  | cons nb rest ih =>
    by_cases hv : nb ∈ visited
    · obtain ⟨d, h1, h2, h3, h4, h5⟩ := ih visited cluster queue
      refine ⟨d, ?_, h2, h3, fun x hx => List.mem_cons_of_mem _ (h4 x hx), h5⟩
      simpa [scanNbrs, hv] using h1
    · by_cases hadm : thld ≤ g.weight cur nb ∧ (cur = seed ∨ thld ≤ sim seed nb)
      · obtain ⟨d, h1, h2, h3, h4, h5⟩ :=
          ih (insert nb visited) (cluster ++ [nb]) (queue ++ [nb])
        refine ⟨nb :: d, ?_, ?_, ?_, ?_, ?_⟩
        · rw [scanNbrs, if_neg hv, if_pos hadm, h1]
          refine congrArg₂ _ ?_ (by simp)
          ext x
          simp [Finset.mem_insert, Finset.mem_union, or_assoc]
        · exact List.nodup_cons.mpr ⟨fun hmem => (h3 nb hmem) (Finset.mem_insert_self _ _), h2⟩
        · intro x hx
          rcases List.mem_cons.mp hx with rfl | hx
          · exact hv
          · exact fun hxv => (h3 x hx) (Finset.mem_insert_of_mem hxv)
        · intro x hx
          rcases List.mem_cons.mp hx with rfl | hx
          · exact List.mem_cons_self _ _
          · exact List.mem_cons_of_mem _ (h4 x hx)
        · intro x hx
          rcases List.mem_cons.mp hx with rfl | hx
          · exact hadm
          · exact h5 x hx
      · obtain ⟨d, h1, h2, h3, h4, h5⟩ := ih visited cluster queue
        refine ⟨d, ?_, h2, h3, fun x hx => List.mem_cons_of_mem _ (h4 x hx), h5⟩
        simpa [scanNbrs, hv, hadm] using h1

theorem mem_nodeSet_foldr (v x : ℕ) (es : List (ℕ × ℕ × ℚ)) (base : Finset ℕ)
    (h : x ∈ es.foldr (fun e acc =>
      (if e.1 = v then [e.2.1] else []) ++ (if e.2.1 = v then [e.1] else []) ++ acc) []) :
    x ∈ es.foldr (fun e acc => insert e.1 (insert e.2.1 acc)) base := by
  induction es with
  | nil => simp at h
  | cons e es ih =>
    simp only [List.foldr_cons, List.mem_append] at h
    simp only [List.foldr_cons, Finset.mem_insert]
    rcases h with (h | h) | h
    · by_cases he : e.1 = v
      · simp [he] at h
        subst h
        simp
      · simp [he] at h
    · by_cases he : e.2.1 = v
      · simp [he] at h
        subst h
        simp
      · simp [he] at h
    · exact Or.inr (Or.inr (ih h))

theorem mem_nodeSet_of_mem_neighbors (g : WGraph) {v x : ℕ}
    (h : x ∈ g.neighbors v) : x ∈ g.nodeSet :=
  mem_nodeSet_foldr v x g.edges (Finset.range g.vcount) h

theorem mem_neighbors_foldr (v x : ℕ) (es : List (ℕ × ℕ × ℚ))
    (h : x ∈ es.foldr (fun e acc =>
      (if e.1 = v then [e.2.1] else []) ++ (if e.2.1 = v then [e.1] else []) ++ acc) []) :
    ∃ e ∈ es, (e.1 = v ∧ e.2.1 = x) ∨ (e.1 = x ∧ e.2.1 = v) := by
  induction es with
  | nil => simp at h
  | cons e es ih =>
    simp only [List.foldr_cons, List.mem_append] at h
    rcases h with (h | h) | h
    · by_cases he : e.1 = v
      · simp [he] at h
        exact ⟨e, List.mem_cons_self _ _, Or.inl ⟨he, h.symm⟩⟩
      · simp [he] at h
    · by_cases he : e.2.1 = v
      · simp [he] at h
        exact ⟨e, List.mem_cons_self _ _, Or.inr ⟨h.symm, he⟩⟩
      · simp [he] at h
    · obtain ⟨e2, he2, hp⟩ := ih h
      exact ⟨e2, List.mem_cons_of_mem _ he2, hp⟩

theorem mem_neighbors_edge (g : WGraph) {v x : ℕ} (h : x ∈ g.neighbors v) :
    ∃ e ∈ g.edges, (e.1 = v ∧ e.2.1 = x) ∨ (e.1 = x ∧ e.2.1 = v) :=
  mem_neighbors_foldr v x g.edges h

theorem scanNbrs_measure (g : WGraph) (thld : ℚ) (sim : ℕ → ℕ → ℚ) (seed cur : ℕ)
    (nbs : List ℕ) (visited : Finset ℕ) (cluster queue : List ℕ)
    (hnb : ∀ x ∈ nbs, x ∈ g.nodeSet) :
    (g.nodeSet \ (scanNbrs g thld sim seed cur nbs visited cluster queue).1).card
      + (scanNbrs g thld sim seed cur nbs visited cluster queue).2.2.length
      ≤ (g.nodeSet \ visited).card + queue.length := by
  obtain ⟨d, heq, hnd, hnv, hmem, _⟩ :=
    scanNbrs_spec g thld sim seed cur nbs visited cluster queue
  rw [heq]
  simp only [List.length_append]
  have hsub : d.toFinset ⊆ g.nodeSet \ visited := by
    intro x hx
    rw [List.mem_toFinset] at hx
    exact Finset.mem_sdiff.mpr ⟨hnb x (hmem x hx), hnv x hx⟩
  have h1 : g.nodeSet \ (visited ∪ d.toFinset) = (g.nodeSet \ visited) \ d.toFinset := by
    ext x
    simp [Finset.mem_sdiff, Finset.mem_union]
    tauto
  rw [h1, Finset.card_sdiff hsub, List.toFinset_card_of_nodup hnd]
  have hle : d.length ≤ (g.nodeSet \ visited).card := by
    simpa [List.toFinset_card_of_nodup hnd] using Finset.card_le_card hsub
  omega

theorem bfs_spec (g : WGraph) (thld : ℚ) (sim : ℕ → ℕ → ℚ) (seed : ℕ) :
    ∀ (queue : List ℕ) (visited : Finset ℕ) (cluster : List ℕ),
      visited ⊆ (bfs g thld sim seed queue visited cluster).1
      ∧ (∃ d : List ℕ, (bfs g thld sim seed queue visited cluster).2 = cluster ++ d)
      ∧ (∀ x, (bfs g thld sim seed queue visited cluster).2.count x
            = cluster.count x
              + (if x ∈ (bfs g thld sim seed queue visited cluster).1 ∧ x ∉ visited then 1 else 0))
      ∧ (∀ x ∈ (bfs g thld sim seed queue visited cluster).1, x ∈ visited ∨ x ∈ g.nodeSet) := by
  intro queue visited cluster
  induction queue, visited, cluster using bfs.induct g thld sim seed with
  | case1 visited cluster =>
    rw [bfs]
    exact ⟨Finset.Subset.refl _, ⟨[], by simp⟩, fun x => by simp, fun x hx => Or.inl hx⟩
  | case2 cur rest visited cluster ih =>
    obtain ⟨d, heq, hnd, hnv, hmem, _⟩ :=
      scanNbrs_spec g thld sim seed cur (g.neighbors cur) visited cluster rest
    rw [bfs, heq]
    rw [heq] at ih
    simp only at ih ⊢
    obtain ⟨ih1, ⟨d2, ih2⟩, ih3, ih4⟩ := ih
    refine ⟨?_, ⟨d ++ d2, by rw [ih2, List.append_assoc]⟩, ?_, ?_⟩
    · exact fun x hx => ih1 (Finset.mem_union_left _ hx)
    · intro x
      rw [ih3 x, List.count_append]
      by_cases hxd : x ∈ d
      · have hc1 : d.count x = 1 := List.count_eq_one_of_mem hnd hxd
        have hxD : x ∈ visited ∪ d.toFinset :=
          Finset.mem_union_right _ (List.mem_toFinset.mpr hxd)
        have hA : x ∈ (bfs g thld sim seed (rest ++ d) (visited ∪ d.toFinset) (cluster ++ d)).1 :=
          ih1 hxD
        rw [if_neg (by simp [hxD]), if_pos ⟨hA, hnv x hxd⟩, hc1]
      · have hc0 : d.count x = 0 := List.count_eq_zero.mpr hxd
        have hiff : (x ∉ visited ∪ d.toFinset) ↔ x ∉ visited := by
          simp [Finset.mem_union, List.mem_toFinset, hxd]
        rw [hc0]
        by_cases hx1 : x ∈ (bfs g thld sim seed (rest ++ d) (visited ∪ d.toFinset) (cluster ++ d)).1
        · by_cases hx2 : x ∈ visited
          · rw [if_neg (by simp [hx2]), if_neg (by simp [hx2])]
          · rw [if_pos ⟨hx1, hiff.mpr hx2⟩, if_pos ⟨hx1, hx2⟩]
        · rw [if_neg (by tauto), if_neg (by tauto)]
    · intro x hx
      rcases ih4 x hx with hv | hns
      · rcases Finset.mem_union.mp hv with hv | hd
        · exact Or.inl hv
        · exact Or.inr (mem_nodeSet_of_mem_neighbors g (hmem x (List.mem_toFinset.mp hd)))
      · exact Or.inr hns

theorem weight_eq_sim (g : WGraph) (sim : ℕ → ℕ → ℚ)
    (hsym : ∀ u v, sim u v = sim v u)
    (hw : ∀ e ∈ g.edges, e.2.2 = sim e.1 e.2.1)
    {cur nb : ℕ} (h : nb ∈ g.neighbors cur) :
    g.weight cur nb = sim cur nb := by
  obtain ⟨e, hmem, hp⟩ := mem_neighbors_edge g h
  have hfind : ((g.edges.find? fun e =>
      (e.1 == cur && e.2.1 == nb) || (e.1 == nb && e.2.1 == cur))).isSome := by
    rw [List.find?_isSome]
    refine ⟨e, hmem, ?_⟩
    rcases hp with ⟨h1, h2⟩ | ⟨h1, h2⟩ <;> simp [h1, h2]
  obtain ⟨e0, hfeq⟩ := Option.isSome_iff_exists.mp hfind
  have hp0 := List.find?_some hfeq
  have hm0 := List.mem_of_find?_eq_some hfeq
  unfold WGraph.weight
  rw [hfeq]
  have hv := hw e0 hm0
  show e0.2.2 = sim cur nb
  rcases (by simpa using hp0 : (e0.1 = cur ∧ e0.2.1 = nb) ∨ (e0.1 = nb ∧ e0.2.1 = cur)) with
    ⟨h1, h2⟩ | ⟨h1, h2⟩
  · rw [hv, h1, h2]
  · rw [hv, h1, h2, hsym]

theorem bfs_sim (g : WGraph) (thld : ℚ) (sim : ℕ → ℕ → ℚ) (seed : ℕ)
    (hsym : ∀ u v, sim u v = sim v u)
    (hw : ∀ e ∈ g.edges, e.2.2 = sim e.1 e.2.1) :
    ∀ (queue : List ℕ) (visited : Finset ℕ) (cluster : List ℕ),
      cluster ≠ [] →
      (∀ x ∈ cluster.tail, thld ≤ sim seed x) →
      ∀ x ∈ (bfs g thld sim seed queue visited cluster).2.tail, thld ≤ sim seed x := by
  intro queue visited cluster
  induction queue, visited, cluster using bfs.induct g thld sim seed with
  | case1 visited cluster =>
    intro hne hcl
    rw [bfs]
    exact hcl
  | case2 cur rest visited cluster ih =>
    intro hne hcl
    obtain ⟨d, heq, hnd, hnv, hmem, hadm⟩ :=
      scanNbrs_spec g thld sim seed cur (g.neighbors cur) visited cluster rest
    rw [bfs, heq]
    rw [heq] at ih
    simp only at ih ⊢
    apply ih
    · cases cluster with
      | nil => exact absurd rfl hne
      | cons a cl => simp
    · intro x hx
      cases cluster with
      | nil => exact absurd rfl hne
      | cons a cl =>
        rw [List.cons_append, List.tail_cons] at hx
        rcases List.mem_append.mp hx with hx | hx
        · exact hcl x (by simpa using hx)
        · obtain ⟨hwt, hcase⟩ := hadm x hx
          rcases hcase with rfl | hs
          · rw [weight_eq_sim g sim hsym hw (hmem x hx)] at hwt
            exact hwt
          · exact hs

theorem condenseGo_spec (g : WGraph) (thld : ℚ) (sim : ℕ → ℕ → ℚ) :
    ∀ (nodes : List ℕ) (visited : Finset ℕ) (acc : List (List ℕ)),
      visited ⊆ (condenseGo g thld sim nodes visited acc).2
      ∧ (∀ x, (condenseGo g thld sim nodes visited acc).1.flatten.count x
            = acc.flatten.count x
              + (if x ∈ (condenseGo g thld sim nodes visited acc).2 ∧ x ∉ visited then 1 else 0))
      ∧ (∀ n ∈ nodes, n ∈ (condenseGo g thld sim nodes visited acc).2)
      ∧ (∀ x ∈ (condenseGo g thld sim nodes visited acc).2,
          x ∈ visited ∨ x ∈ nodes ∨ x ∈ g.nodeSet) := by
  intro nodes
  induction nodes with
  | nil =>
    intro visited acc
    refine ⟨Finset.Subset.refl _, fun x => ?_, by simp [condenseGo], ?_⟩
    · by_cases hx : x ∈ visited <;> simp [condenseGo, hx]
    · intro x hx
      exact Or.inl (by simpa [condenseGo] using hx)
  | cons node rest ih =>
    intro visited acc
    by_cases hv : node ∈ visited
    · obtain ⟨ih1, ih2, ih3, ih4⟩ := ih visited acc
      rw [condenseGo, if_pos hv] at *
      refine ⟨ih1, ih2, ?_, ?_⟩
      · intro n hn
        rcases List.mem_cons.mp hn with rfl | hn
        · exact ih1 hv
        · exact ih3 n hn
      · intro x hx
        rcases ih4 x hx with h | h | h
        · exact Or.inl h
        · exact Or.inr (Or.inl (List.mem_cons_of_mem _ h))
        · exact Or.inr (Or.inr h)
    · obtain ⟨hb1, ⟨db, hb2⟩, hb3, hb4⟩ :=
        bfs_spec g thld sim node [node] (insert node visited) [node]
      obtain ⟨ih1, ih2, ih3, ih4⟩ := ih
        (bfs g thld sim node [node] (insert node visited) [node]).1
        (acc ++ [(bfs g thld sim node [node] (insert node visited) [node]).2])
      rw [condenseGo, if_neg hv]
      have hsub : insert node visited ⊆
          (condenseGo g thld sim rest
            (bfs g thld sim node [node] (insert node visited) [node]).1
            (acc ++ [(bfs g thld sim node [node] (insert node visited) [node]).2])).2 :=
        fun x hx => ih1 (hb1 hx)
      refine ⟨fun x hx => hsub (Finset.mem_insert_of_mem hx), ?_, ?_, ?_⟩
      · intro x
        rw [ih2 x]
        simp only [List.flatten_append, List.flatten_cons, List.flatten_nil, List.append_nil,
          List.count_append]
        rw [hb3 x]
        by_cases hxn : x = node
        · subst hxn
          have hxB : x ∈ (bfs g thld sim x [x] (insert x visited) [x]).1 :=
            hb1 (Finset.mem_insert_self _ _)
          have hxr : x ∈ (condenseGo g thld sim rest
              (bfs g thld sim x [x] (insert x visited) [x]).1
              (acc ++ [(bfs g thld sim x [x] (insert x visited) [x]).2])).2 :=
            ih1 hxB
          simp [hxB, hxr, hv]
        · by_cases hxB : x ∈ (bfs g thld sim node [node] (insert node visited) [node]).1
          · have hxr : x ∈ (condenseGo g thld sim rest
                (bfs g thld sim node [node] (insert node visited) [node]).1
                (acc ++ [(bfs g thld sim node [node] (insert node visited) [node]).2])).2 :=
              ih1 hxB
            by_cases hxv : x ∈ visited
            · simp [hxn, hxB, hxr, hxv, Finset.mem_insert]
            · simp [hxn, hxB, hxr, hxv, Finset.mem_insert]
          · have hxv : x ∉ visited :=
              fun h => hxB (hb1 (Finset.mem_insert_of_mem h))
            simp [hxn, hxB, hxv, Finset.mem_insert]
      · intro n hn
        rcases List.mem_cons.mp hn with rfl | hn
        · exact hsub (Finset.mem_insert_self _ _)
        · exact ih3 n hn
      · intro x hx
        rcases ih4 x hx with h | h | h
        · rcases hb4 x h with h2 | h2
          · rcases Finset.mem_insert.mp h2 with rfl | h2
            · exact Or.inr (Or.inl (List.mem_cons_self _ _))
            · exact Or.inl h2
          · exact Or.inr (Or.inr h2)
        · exact Or.inr (Or.inl (List.mem_cons_of_mem _ h))
        · exact Or.inr (Or.inr h)

theorem nodeSet_bound_foldr (n : ℕ) :
    ∀ es : List (ℕ × ℕ × ℚ), (∀ e ∈ es, e.1 < n ∧ e.2.1 < n) →
    ∀ x ∈ es.foldr (fun e acc => insert e.1 (insert e.2.1 acc)) (Finset.range n),
      x < n := by
  intro es
  induction es with
  | nil => intro hE x hx; simpa using hx
  | cons e es ih =>
    intro hE x hx
    simp only [List.foldr_cons, Finset.mem_insert] at hx
    rcases hx with rfl | rfl | hx
    · exact (hE e (List.mem_cons_self _ _)).1
    · exact (hE e (List.mem_cons_self _ _)).2
    · exact ih (fun e2 he2 => hE e2 (List.mem_cons_of_mem _ he2)) x hx

theorem mem_nodeSet_bound (g : WGraph)
    (hE : ∀ e ∈ g.edges, e.1 < g.vcount ∧ e.2.1 < g.vcount) :
    ∀ x ∈ g.nodeSet, x < g.vcount :=
  nodeSet_bound_foldr g.vcount g.edges hE

theorem mem_sortedVertices (g : WGraph) (x : ℕ) :
    x ∈ g.sortedVertices ↔ x < g.vcount := by
  unfold WGraph.sortedVertices
  rw [(List.perm_insertionSort g.vertexLe (List.range g.vcount)).mem_iff, List.mem_range]

/-- Shared partition lemma for the clusterer: on a graph whose edge
endpoints all lie below `vcount` (as igraph guarantees), every node id
below `vcount` occurs in exactly one cluster and nothing else occurs. -/
theorem condense_partition (g : WGraph) (thld : ℚ) (sim : ℕ → ℕ → ℚ)
    (hE : ∀ e ∈ g.edges, e.1 < g.vcount ∧ e.2.1 < g.vcount) :
    ∀ x, (condense_dreams_knn g thld sim).flatten.count x
      = if x < g.vcount then 1 else 0 := by
  intro x
  obtain ⟨h1, h2, h3, h4⟩ := condenseGo_spec g thld sim g.sortedVertices ∅ []
  unfold condense_dreams_knn
  rw [h2 x]
  simp only [List.flatten_nil, List.count_nil, Finset.not_mem_empty, not_false_iff, and_true,
    Nat.zero_add]
  by_cases hx : x < g.vcount
  · rw [if_pos hx, if_pos (h3 x ((mem_sortedVertices g x).mpr hx))]
  · rw [if_neg hx, if_neg]
    intro hmem
    rcases h4 x hmem with h | h | h
    · exact absurd h (Finset.not_mem_empty x)
    · exact hx ((mem_sortedVertices g x).mp h)
    · exact hx (mem_nodeSet_bound g hE x h)

theorem condenseGo_clusters_sim (g : WGraph) (thld : ℚ) (sim : ℕ → ℕ → ℚ)
    (hsym : ∀ u v, sim u v = sim v u)
    (hw : ∀ e ∈ g.edges, e.2.2 = sim e.1 e.2.1) :
    ∀ (nodes : List ℕ) (visited : Finset ℕ) (acc : List (List ℕ)),
      (∀ c ∈ acc, ∀ x ∈ c.tail, thld ≤ sim c.headI x) →
      ∀ c ∈ (condenseGo g thld sim nodes visited acc).1,
        ∀ x ∈ c.tail, thld ≤ sim c.headI x := by
  intro nodes
  induction nodes with
  | nil =>
    intro visited acc hacc
    simpa [condenseGo] using hacc
  | cons node rest ih =>
    intro visited acc hacc
    by_cases hv : node ∈ visited
    · rw [condenseGo, if_pos hv]
      exact ih visited acc hacc
    · rw [condenseGo, if_neg hv]
      apply ih
      intro c hc
      rcases List.mem_append.mp hc with hc | hc
      · exact hacc c hc
      · have hceq : c = (bfs g thld sim node [node] (insert node visited) [node]).2 := by
          simpa using hc
        subst hceq
        obtain ⟨_, ⟨db, hb2⟩, _, _⟩ :=
          bfs_spec g thld sim node [node] (insert node visited) [node]
        intro x hx
        have hhead : (bfs g thld sim node [node] (insert node visited) [node]).2.headI
            = node := by
          rw [hb2]
          rfl
        rw [hhead]
        exact bfs_sim g thld sim node hsym hw [node] (insert node visited) [node]
          (by simp) (by simp) x hx

theorem append_singleton_decomp {α : Type} :
    ∀ (acc pre post : List α) (b c : α), acc ++ [b] = pre ++ c :: post →
      (pre = acc ∧ c = b ∧ post = []) ∨ (∃ post2, acc = pre ++ c :: post2) := by
  intro acc
  induction acc with
  | nil =>
    intro pre post b c h
    cases pre with
    | nil =>
      simp only [List.nil_append] at h
      obtain ⟨h1, h2⟩ := List.cons.inj h
      exact Or.inl ⟨rfl, h1.symm, h2.symm⟩
    | cons p pre2 =>
      simp only [List.nil_append, List.cons_append] at h
      obtain ⟨-, h2⟩ := List.cons.inj h
      exact absurd h2.symm (List.append_ne_nil_of_right_ne_nil _ (List.cons_ne_nil _ _))
  | cons a acc2 ih =>
    intro pre post b c h
    cases pre with
    | nil =>
      simp only [List.cons_append, List.nil_append] at h
      obtain ⟨h1, h2⟩ := List.cons.inj h
      exact Or.inr ⟨acc2, by rw [h1]; rfl⟩
    | cons p pre2 =>
      simp only [List.cons_append] at h
      obtain ⟨h1, h2⟩ := List.cons.inj h
      rcases ih pre2 post b c h2 with ⟨ha, hb, hc⟩ | ⟨post2, hp⟩
      · exact Or.inl ⟨by rw [h1, ha], hb, hc⟩
      · exact Or.inr ⟨post2, by rw [h1, hp]; rfl⟩

theorem condenseGo_seeds (g : WGraph) (thld : ℚ) (sim : ℕ → ℕ → ℚ)
    (hE : ∀ e ∈ g.edges, e.1 < g.vcount ∧ e.2.1 < g.vcount) :
    ∀ (nodes : List ℕ) (visited : Finset ℕ) (acc : List (List ℕ)),
      List.Sorted g.vertexLe nodes →
      (∀ v, v ∈ visited ↔ v ∈ acc.flatten) →
      (∀ y, y < g.vcount → y ∈ nodes ∨ y ∈ visited) →
      (∀ pre c post, acc = pre ++ c :: post →
        ∀ x, (x ∈ nodes ∨ x ∈ visited) → x ∉ pre.flatten → g.vertexLe c.headI x) →
      ∀ pre c post, (condenseGo g thld sim nodes visited acc).1 = pre ++ c :: post →
        ∀ x, (x ∈ nodes ∨ x ∈ visited) → x ∉ pre.flatten → g.vertexLe c.headI x := by
  intro nodes
  induction nodes with
  | nil =>
    intro visited acc hsort hvis hcov H pre c post hdec x hx hpre
    rw [condenseGo] at hdec
    exact H pre c post hdec x hx hpre
  | cons node rest ih =>
    intro visited acc hsort hvis hcov H pre c post hdec x hx hpre
    have hsort2 : List.Sorted g.vertexLe rest := hsort.of_cons
    have hsorthead : ∀ b ∈ rest, g.vertexLe node b := (List.sorted_cons.mp hsort).1
    by_cases hv : node ∈ visited
    · rw [condenseGo, if_pos hv] at hdec
      refine ih visited acc hsort2 hvis ?_ ?_ pre c post hdec x ?_ hpre
      · intro y hy
        rcases hcov y hy with hy2 | hy2
        · rcases List.mem_cons.mp hy2 with rfl | hy2
          · exact Or.inr hv
          · exact Or.inl hy2
        · exact Or.inr hy2
      · intro pre2 c2 post2 hdec2 x2 hx2 hpre2
        refine H pre2 c2 post2 hdec2 x2 ?_ hpre2
        rcases hx2 with hx2 | hx2
        · exact Or.inl (List.mem_cons_of_mem _ hx2)
        · exact Or.inr hx2
      · rcases hx with hx | hx
        · rcases List.mem_cons.mp hx with rfl | hx
          · exact Or.inr hv
          · exact Or.inl hx
        · exact Or.inr hx
    · rw [condenseGo, if_neg hv] at hdec
      obtain ⟨hb1, ⟨db, hb2⟩, hb3, hb4⟩ :=
        bfs_spec g thld sim node [node] (insert node visited) [node]
      have hhead : (bfs g thld sim node [node] (insert node visited) [node]).2.headI
          = node := by
        rw [hb2]
        rfl
      have hBiff : ∀ v, v ∈ (bfs g thld sim node [node] (insert node visited) [node]).1 ↔
          (v ∈ visited ∨ v ∈ (bfs g thld sim node [node] (insert node visited) [node]).2) := by
        intro v
        constructor
        · intro hvB
          by_cases hvi : v ∈ insert node visited
          · rcases Finset.mem_insert.mp hvi with rfl | hvi
            · refine Or.inr ?_
              rw [hb2]
              exact List.mem_append.mpr (Or.inl (List.mem_singleton.mpr rfl))
            · exact Or.inl hvi
          · refine Or.inr ?_
            have h3 := hb3 v
            rw [if_pos ⟨hvB, hvi⟩] at h3
            exact List.count_pos_iff.mp (by omega)
        · intro hvi
          rcases hvi with hvi | hvb
          · exact hb1 (Finset.mem_insert_of_mem hvi)
          · by_cases hvins : v ∈ insert node visited
            · exact hb1 hvins
            · have h3 := hb3 v
              have hcount : 0 < (bfs g thld sim node [node]
                  (insert node visited) [node]).2.count v :=
                List.count_pos_iff.mpr hvb
              have hvne : v ≠ node := fun hh => hvins (hh ▸ Finset.mem_insert_self _ _)
              have hcnode : List.count v [node] = 0 :=
                List.count_eq_zero.mpr (by simp [hvne])
              rw [hcnode] at h3
              by_contra hnB
              rw [if_neg (by tauto)] at h3
              omega
      have hvis2 : ∀ v, v ∈ (bfs g thld sim node [node] (insert node visited) [node]).1 ↔
          v ∈ (acc ++ [(bfs g thld sim node [node] (insert node visited) [node]).2]).flatten := by
        intro v
        rw [hBiff v, hvis v]
        simp [List.flatten_append]
      refine ih (bfs g thld sim node [node] (insert node visited) [node]).1
        (acc ++ [(bfs g thld sim node [node] (insert node visited) [node]).2])
        hsort2 hvis2 ?_ ?_ pre c post hdec x ?_ hpre
      · intro y hy
        rcases hcov y hy with hy2 | hy2
        · rcases List.mem_cons.mp hy2 with rfl | hy2
          · exact Or.inr (hb1 (Finset.mem_insert_self _ _))
          · exact Or.inl hy2
        · exact Or.inr (hb1 (Finset.mem_insert_of_mem hy2))
      · intro pre2 c2 post2 hdec2 x2 hx2 hpre2
        have hx2b : (x2 ∈ node :: rest) ∨ x2 ∈ visited := by
          rcases hx2 with hx2 | hx2
          · exact Or.inl (List.mem_cons_of_mem _ hx2)
          · rcases hb4 x2 hx2 with hins | hns
            · rcases Finset.mem_insert.mp hins with rfl | hins
              · exact Or.inl (List.mem_cons_self _ _)
              · exact Or.inr hins
            · rcases hcov x2 (mem_nodeSet_bound g hE x2 hns) with h2 | h2
              · exact Or.inl h2
              · exact Or.inr h2
        rcases append_singleton_decomp acc pre2 post2 _ c2 hdec2 with ⟨hpa, hcb, -⟩ |
          ⟨post3, hpa⟩
        · subst hpa
          rw [hcb, hhead]
          have hx2nv : x2 ∉ visited := fun hh => hpre2 ((hvis x2).mp hh)
          rcases hx2b with hx2c | hx2c
          · rcases List.mem_cons.mp hx2c with rfl | hx2c
            · exact Or.inr ⟨rfl, Nat.le_refl _⟩
            · exact hsorthead x2 hx2c
          · exact absurd hx2c hx2nv
        · exact H pre2 c2 post3 hpa x2 hx2b hpre2
      · rcases hx with hx | hx
        · rcases List.mem_cons.mp hx with rfl | hx
          · exact Or.inr (hb1 (Finset.mem_insert_self _ _))
          · exact Or.inl hx
        · exact Or.inr (hb1 (Finset.mem_insert_of_mem hx))

theorem simW_symm : ∀ u v, simW u v = simW v u := by
  intro u v
  unfold simW
  rw [Nat.add_comm]

/-! ## Claim theorems for the clusterer -/
/-- C1: whenever every edge weight of the input graph equals the
(symmetric) similarity of its endpoints, every non-seed member `x` of a
cluster produced by `condense_dreams_knn` satisfies
`sim seed x ≥ thld`, where the seed is the first element of the
cluster — even when no direct edge joins the seed to `x`. -/
theorem transitivity_of_condense_dreams_knn (g : WGraph) (thld : ℚ) (sim : ℕ → ℕ → ℚ)
    (hsym : ∀ u v, sim u v = sim v u)
    (hw : ∀ e ∈ g.edges, e.2.2 = sim e.1 e.2.1) :
    ∀ c ∈ condense_dreams_knn g thld sim, ∀ x ∈ c.tail, thld ≤ sim c.headI x := by
  intro c hc x hx
  exact condenseGo_clusters_sim g thld sim hsym hw g.sortedVertices ∅ [] (by simp)
    c hc x hx

/-! Step equations used to evaluate the (well-founded recursive)
traversal on concrete inputs. -/
theorem bfs_nil_eval (g : WGraph) (thld : ℚ) (sim : ℕ → ℕ → ℚ) (seed : ℕ)
    (visited : Finset ℕ) (cluster : List ℕ) :
    bfs g thld sim seed [] visited cluster = (visited, cluster) := by
  simp only [bfs]

theorem bfs_cons_eval (g : WGraph) (thld : ℚ) (sim : ℕ → ℕ → ℚ) (seed cur : ℕ)
    (rest : List ℕ) (visited V2 : Finset ℕ) (cluster C2 Q2 : List ℕ)
    (h : scanNbrs g thld sim seed cur (g.neighbors cur) visited cluster rest = (V2, C2, Q2)) :
    bfs g thld sim seed (cur :: rest) visited cluster = bfs g thld sim seed Q2 V2 C2 := by
  rw [bfs, h]

theorem condenseGo_nil_eval (g : WGraph) (thld : ℚ) (sim : ℕ → ℕ → ℚ)
    (visited : Finset ℕ) (acc : List (List ℕ)) :
    condenseGo g thld sim [] visited acc = (acc, visited) := by
  simp only [condenseGo]

theorem condenseGo_cons_visited (g : WGraph) (thld : ℚ) (sim : ℕ → ℕ → ℚ)
    (node : ℕ) (rest : List ℕ) (visited : Finset ℕ) (acc : List (List ℕ))
    (h : node ∈ visited) :
    condenseGo g thld sim (node :: rest) visited acc
      = condenseGo g thld sim rest visited acc := by
  rw [condenseGo, if_pos h]

theorem condenseGo_cons_new (g : WGraph) (thld : ℚ) (sim : ℕ → ℕ → ℚ)
    (node : ℕ) (rest : List ℕ) (visited V2 : Finset ℕ) (acc : List (List ℕ)) (C2 : List ℕ)
    (h : node ∉ visited)
    (hB : bfs g thld sim node [node] (insert node visited) [node] = (V2, C2)) :
    condenseGo g thld sim (node :: rest) visited acc
      = condenseGo g thld sim rest V2 (acc ++ [C2]) := by
  rw [condenseGo, if_neg h, hB]

theorem condense_gW1_eval : condense_dreams_knn gW1 qhalf simW = [[0, 1]] := by
  have hbfs : bfs gW1 qhalf simW 0 [0] (insert 0 ∅) [0]
      = (insert 1 (insert 0 ∅), [0, 1]) := by
    rw [bfs_cons_eval gW1 qhalf simW 0 0 [] (insert 0 ∅) (insert 1 (insert 0 ∅))
        [0] [0, 1] [1] (by decide)]
    rw [bfs_cons_eval gW1 qhalf simW 0 1 [] (insert 1 (insert 0 ∅)) (insert 1 (insert 0 ∅))
        [0, 1] [0, 1] [] (by decide)]
    exact bfs_nil_eval _ _ _ _ _ _
  unfold condense_dreams_knn
  rw [show gW1.sortedVertices = [0, 1] from by decide]
  rw [condenseGo_cons_new gW1 qhalf simW 0 [1] ∅ (insert 1 (insert 0 ∅)) [] [0, 1]
    (by decide) hbfs]
  simp only [List.nil_append]
  rw [condenseGo_cons_visited gW1 qhalf simW 1 [] (insert 1 (insert 0 ∅)) [[0, 1]]
    (by decide)]
  rw [condenseGo_nil_eval]

theorem condense_gW3_q45_eval : condense_dreams_knn gW3 q45 simW = [[0, 1], [2]] := by
  have hb0 : bfs gW3 q45 simW 0 [0] (insert 0 ∅) [0]
      = (insert 1 (insert 0 ∅), [0, 1]) := by
    rw [bfs_cons_eval gW3 q45 simW 0 0 [] (insert 0 ∅) (insert 1 (insert 0 ∅))
        [0] [0, 1] [1] (by decide)]
    rw [bfs_cons_eval gW3 q45 simW 0 1 [] (insert 1 (insert 0 ∅)) (insert 1 (insert 0 ∅))
        [0, 1] [0, 1] [] (by decide)]
    exact bfs_nil_eval _ _ _ _ _ _
  have hb2 : bfs gW3 q45 simW 2 [2] (insert 2 (insert 1 (insert 0 ∅))) [2]
      = (insert 2 (insert 1 (insert 0 ∅)), [2]) := by
    rw [bfs_cons_eval gW3 q45 simW 2 2 [] (insert 2 (insert 1 (insert 0 ∅)))
        (insert 2 (insert 1 (insert 0 ∅))) [2] [2] [] (by decide)]
    exact bfs_nil_eval _ _ _ _ _ _
  unfold condense_dreams_knn
  rw [show gW3.sortedVertices = [0, 1, 2] from by decide]
  rw [condenseGo_cons_new gW3 q45 simW 0 [1, 2] ∅ (insert 1 (insert 0 ∅)) [] [0, 1]
    (by decide) hb0]
  simp only [List.nil_append]
  rw [condenseGo_cons_visited gW3 q45 simW 1 [2] (insert 1 (insert 0 ∅)) [[0, 1]]
    (by decide)]
  rw [condenseGo_cons_new gW3 q45 simW 2 [] (insert 1 (insert 0 ∅))
    (insert 2 (insert 1 (insert 0 ∅))) [[0, 1]] [2] (by decide) hb2]
  rw [condenseGo_nil_eval]
  rfl

theorem condense_gW3_qtwo_eval : condense_dreams_knn gW3 qtwo simW = [[0], [1], [2]] := by
  have hb0 : bfs gW3 qtwo simW 0 [0] (insert 0 ∅) [0] = (insert 0 ∅, [0]) := by
    rw [bfs_cons_eval gW3 qtwo simW 0 0 [] (insert 0 ∅) (insert 0 ∅) [0] [0] []
      (by decide)]
    exact bfs_nil_eval _ _ _ _ _ _
  have hb1 : bfs gW3 qtwo simW 1 [1] (insert 1 (insert 0 ∅)) [1]
      = (insert 1 (insert 0 ∅), [1]) := by
    rw [bfs_cons_eval gW3 qtwo simW 1 1 [] (insert 1 (insert 0 ∅)) (insert 1 (insert 0 ∅))
        [1] [1] [] (by decide)]
    exact bfs_nil_eval _ _ _ _ _ _
  have hb2 : bfs gW3 qtwo simW 2 [2] (insert 2 (insert 1 (insert 0 ∅))) [2]
      = (insert 2 (insert 1 (insert 0 ∅)), [2]) := by
    rw [bfs_cons_eval gW3 qtwo simW 2 2 [] (insert 2 (insert 1 (insert 0 ∅)))
        (insert 2 (insert 1 (insert 0 ∅))) [2] [2] [] (by decide)]
    exact bfs_nil_eval _ _ _ _ _ _
  unfold condense_dreams_knn
  rw [show gW3.sortedVertices = [0, 1, 2] from by decide]
  rw [condenseGo_cons_new gW3 qtwo simW 0 [1, 2] ∅ (insert 0 ∅) [] [0] (by decide) hb0]
  simp only [List.nil_append]
  rw [condenseGo_cons_new gW3 qtwo simW 1 [2] (insert 0 ∅) (insert 1 (insert 0 ∅))
    [[0]] [1] (by decide) hb1]
  simp only [List.singleton_append]
  rw [condenseGo_cons_new gW3 qtwo simW 2 [] (insert 1 (insert 0 ∅))
    (insert 2 (insert 1 (insert 0 ∅))) [[0], [1]] [2] (by decide) hb2]
  rw [condenseGo_nil_eval]
  rfl

theorem transitivity_witness : qhalf ≤ simW (List.headI [0, 1]) 1 :=
  transitivity_of_condense_dreams_knn gW1 qhalf simW simW_symm (by decide)
    [0, 1] (by rw [condense_gW1_eval]; exact List.mem_singleton.mpr rfl) 1 (by decide)

/-- C7 (amended): the code performs no threshold validation.  An
out-of-range threshold is accepted and the traversal runs to completion,
still returning a partition of the nodes. -/
theorem no_threshold_validation (g : WGraph) (thld : ℚ) (sim : ℕ → ℕ → ℚ)
    (hout : thld < 0 ∨ 1 < thld)
    (hE : ∀ e ∈ g.edges, e.1 < g.vcount ∧ e.2.1 < g.vcount) :
    ∀ x, (condense_dreams_knn g thld sim).flatten.count x
      = if x < g.vcount then 1 else 0 :=
  condense_partition g thld sim hE

theorem no_threshold_validation_witness :
    (condense_dreams_knn gW3 qtwo simW).flatten.count 2 = 1 := by
  have h := no_threshold_validation gW3 qtwo simW (Or.inr (by decide)) (by decide) 2
  rw [if_pos (by decide)] at h
  exact h

/-- C7 counterexample: with threshold `2 ∉ [0,1]` the clusterer does not
fail: it runs the traversal and produces (singleton) clusters, so
clusters are formed and nodes are visited, contradicting the claimed
`InvalidThreshold` rejection before any traversal. -/
theorem threshold_not_rejected_cex :
    condense_dreams_knn gW3 qtwo simW = [[0], [1], [2]]
    ∧ ([[0], [1], [2]] : List (List ℕ)) ≠ [] :=
  ⟨condense_gW3_qtwo_eval, by decide⟩

/-- C8 (amended): the seed of every cluster is maximal, with respect to
the order `vertexLe` (descending degree in the *unfiltered* input graph,
ties by ascending node id), among all nodes not contained in earlier
clusters. -/
theorem seed_order_of_condense_dreams_knn (g : WGraph) (thld : ℚ) (sim : ℕ → ℕ → ℚ)
    (hE : ∀ e ∈ g.edges, e.1 < g.vcount ∧ e.2.1 < g.vcount) :
    ∀ pre c post, condense_dreams_knn g thld sim = pre ++ c :: post →
      ∀ x, x < g.vcount → x ∉ pre.flatten → g.vertexLe c.headI x := by
  intro pre c post hdec x hx hpre
  refine condenseGo_seeds g thld sim hE g.sortedVertices ∅ []
    (List.sorted_insertionSort g.vertexLe (List.range g.vcount)) (by simp) ?_ ?_
    pre c post hdec x ?_ hpre
  · exact fun y hy => Or.inl ((mem_sortedVertices g y).mpr hy)
  · intro pre2 c2 post2 h
    exact absurd h (by simp)
  · exact Or.inl ((mem_sortedVertices g x).mpr hx)

theorem seed_order_witness : gW3.vertexLe (List.headI [2]) 2 :=
  seed_order_of_condense_dreams_knn gW3 q45 simW (by decide) [[0, 1]] [2] []
    (by rw [condense_gW3_q45_eval]; rfl) 2 (by decide) (by decide)

/-- C8 counterexample: at threshold `4/5` on `gW3` the code's first
cluster has seed `0`, although node `1` is unassigned and has a strictly
larger degree in the threshold-filtered graph (`2` versus `1`): the
claimed descending-filtered-degree processing order would have chosen
node `1` as the first seed. -/
theorem seed_order_filtered_cex :
    condense_dreams_knn gW3 q45 simW = [[0, 1], [2]]
    ∧ specFilteredDegree gW3 q45 1 = 2
    ∧ specFilteredDegree gW3 q45 0 = 1 :=
  ⟨condense_gW3_q45_eval, by decide, by decide⟩

theorem keyLt_ne {a b : ℕ × ℕ} (h : keyLt a b) : a ≠ b := by
  intro heq
  subst heq
  unfold keyLt at h
  omega

theorem keyLt_le {a b : ℕ × ℕ} (h : keyLt a b) : keyLe a b := by
  unfold keyLt at h
  unfold keyLe
  omega

theorem entryKey_oneMinus (e : Entry) :
    entryKey (e.1, e.2.1, oneMinusVal e.2.2) = entryKey e := rfl

theorem cooToCsr_perm {es es2 : List Entry} (h : es.Perm es2) :
    cooToCsr es = cooToCsr es2 := by
  unfold cooToCsr
  have hkeys : ((es.map entryKey).dedup).Perm ((es2.map entryKey).dedup) :=
    (h.map entryKey).dedup
  have hsorted : List.insertionSort keyLe ((es.map entryKey).dedup)
      = List.insertionSort keyLe ((es2.map entryKey).dedup) :=
    @List.eq_of_perm_of_sorted _ keyLe _ _ _
      (((List.perm_insertionSort _ _).trans hkeys).trans
        (List.perm_insertionSort _ _).symm)
      (List.sorted_insertionSort _ _)
      (List.sorted_insertionSort _ _)
  rw [hsorted]
  apply List.map_congr_left
  intro k hk
  have hsum : ((es.filter (fun e => entryKey e == k)).map (fun e => e.2.2)).sum
      = ((es2.filter (fun e => entryKey e == k)).map (fun e => e.2.2)).sum :=
    List.Perm.sum_eq ((h.filter _).map _)
  rw [hsum]

theorem filter_key_unique :
    ∀ (es : List Entry), (es.map entryKey).Nodup →
      ∀ e ∈ es, es.filter (fun x => entryKey x == entryKey e) = [e] := by
  intro es
  induction es with
  | nil =>
    intro _ e he
    cases he
  | cons a es ih =>
    intro hnd e he
    rw [List.map_cons, List.nodup_cons] at hnd
    obtain ⟨hna, hnd2⟩ := hnd
    rcases List.mem_cons.mp he with rfl | he2
    · rw [List.filter_cons, if_pos (by simp)]
      have hnil : es.filter (fun x => entryKey x == entryKey e) = [] := by
        rw [List.filter_eq_nil_iff]
        intro x hx
        simp only [beq_iff_eq]
        intro hcontra
        exact hna (hcontra ▸ List.mem_map_of_mem entryKey hx)
      rw [hnil]
    · rw [List.filter_cons, if_neg ?_, ih hnd2 e he2]
      simp only [beq_iff_eq]
      intro hcontra
      exact hna (hcontra ▸ List.mem_map_of_mem entryKey he2)

theorem build_entryKey (es : List Entry) (hnd : (es.map entryKey).Nodup) :
    ∀ e ∈ es,
      ((fun k => ((k.1, k.2,
        ((es.filter (fun x => entryKey x == k)).map (fun x => x.2.2)).sum) : Entry))
        ∘ entryKey) e = id e := by
  intro e he
  simp only [Function.comp_apply, id_eq]
  rw [filter_key_unique es hnd e he]
  simp only [List.map_cons, List.map_nil, List.sum_cons, List.sum_nil, add_zero]
  rfl

theorem cooToCsr_of_nodup_keys (es : List Entry) (hnd : (es.map entryKey).Nodup) :
    (cooToCsr es).Perm es := by
  unfold cooToCsr
  rw [List.dedup_eq_self.mpr hnd]
  have hperm := (List.perm_insertionSort keyLe (es.map entryKey)).map
    (fun k => ((k.1, k.2,
      ((es.filter (fun x => entryKey x == k)).map (fun x => x.2.2)).sum) : Entry))
  refine hperm.trans ?_
  rw [List.map_map, List.map_congr_left (build_entryKey es hnd), List.map_id]

theorem cooToCsr_of_canonical (es : List Entry)
    (hc : List.Pairwise (fun a b => keyLt (entryKey a) (entryKey b)) es) :
    cooToCsr es = es := by
  have hpl : List.Pairwise keyLt (es.map entryKey) := List.pairwise_map.mpr hc
  have hnd : (es.map entryKey).Nodup := hpl.imp (fun h => keyLt_ne h)
  unfold cooToCsr
  rw [List.dedup_eq_self.mpr hnd]
  rw [List.Sorted.insertionSort_eq (hpl.imp (fun h => keyLt_le h))]
  rw [List.map_map, List.map_congr_left (build_entryKey es hnd), List.map_id]

theorem oneMinusVal_invol {v : ℚ} (h : v < 1) : oneMinusVal (oneMinusVal v) = v := by
  unfold oneMinusVal
  by_cases h0 : 0 < v
  · rw [if_pos h0, if_pos (by linarith), ]
    ring
  · rw [if_neg h0, if_neg h0]

theorem oneMinusData_get (es : List Entry) (i : ℕ) (h : i < es.length)
    (h2 : i < (oneMinusData es).length) :
    (oneMinusData es).get ⟨i, h2⟩
      = ((es.get ⟨i, h⟩).1, (es.get ⟨i, h⟩).2.1, oneMinusVal (es.get ⟨i, h⟩).2.2) := by
  unfold oneMinusData at h2 ⊢
  rw [List.get_eq_getElem, List.getElem_map]
  rfl

/-- C5 (amended): applying the constructor's one-minus transform twice
restores, entry by entry, every stored entry whose weight is below `1`,
regardless of what the other entries of the store hold — positive
weights in `(0,1)` go through `1 - (1 - w) = w`, and entries with weight
`≤ 0` (in particular stored explicit zeros) are untouched by both
applications, so a zero weight is never promoted to `1`.  (A stored
weight of exactly `1` is the exception: see the counterexample.) -/
theorem oneMinus_twice (es : List Entry) :
    (∀ i, ∀ h1 : i < es.length,
        ∀ h3 : i < (oneMinusData (oneMinusData es)).length,
        (es.get ⟨i, h1⟩).2.2 < 1 →
        (oneMinusData (oneMinusData es)).get ⟨i, h3⟩ = es.get ⟨i, h1⟩)
    ∧ (∀ i, ∀ h1 : i < es.length, ∀ h2 : i < (oneMinusData es).length,
        ∀ h3 : i < (oneMinusData (oneMinusData es)).length,
        (es.get ⟨i, h1⟩).2.2 ≤ 0 →
        (oneMinusData es).get ⟨i, h2⟩ = es.get ⟨i, h1⟩
        ∧ (oneMinusData (oneMinusData es)).get ⟨i, h3⟩ = es.get ⟨i, h1⟩) := by
  constructor
  · intro i h1 h3 hlt
    have h2 : i < (oneMinusData es).length := by
      unfold oneMinusData
      simpa using h1
    rw [oneMinusData_get (oneMinusData es) i h2 h3, oneMinusData_get es i h1 h2]
    show ((es.get ⟨i, h1⟩).1, (es.get ⟨i, h1⟩).2.1,
      oneMinusVal (oneMinusVal (es.get ⟨i, h1⟩).2.2)) = es.get ⟨i, h1⟩
    rw [oneMinusVal_invol hlt]
  · intro i h1 h2 h3 hle
    have hvm : ¬ 0 < (es.get ⟨i, h1⟩).2.2 := by linarith
    have hone : (oneMinusData es).get ⟨i, h2⟩ = es.get ⟨i, h1⟩ := by
      rw [oneMinusData_get es i h1 h2]
      unfold oneMinusVal
      rw [if_neg hvm]
    refine ⟨hone, ?_⟩
    rw [oneMinusData_get (oneMinusData es) i h2 h3, hone]
    unfold oneMinusVal
    rw [if_neg hvm]

/-- C5 counterexample: a stored entry with (nonzero) weight exactly `1`
is sent to `0` by the first application of the transform (`1 > 0`, so
the mask selects it) and then left at `0` by the second (the mask
excludes zeros): double application yields `0`, not the original `1`. -/
theorem oneMinus_twice_cex :
    oneMinusData (oneMinusData [((0 : ℕ), (1 : ℕ), (1 : ℚ))]) = [(0, 1, (0 : ℚ))]
    ∧ ((0 : ℚ) ≠ 1) := by
  constructor
  · with_unfolding_all decide
  · decide

theorem oneMinus_twice_witness :
    (oneMinusData (oneMinusData esW5)).get ⟨0, by decide⟩ = esW5.get ⟨0, by decide⟩
    ∧ (oneMinusData esW5).get ⟨1, by decide⟩ = esW5.get ⟨1, by decide⟩ :=
  ⟨(oneMinus_twice esW5).1 0 (by decide) (by decide) (by decide),
   ((oneMinus_twice esW5).2 1 (by decide) (by decide) (by decide) (by decide)).1⟩

/-- C9: every construction path needs a matrix with at least one row.
The constructor reads `self.neighbors(0)` to derive `k`, which fails on
an empty matrix; `from_edge_list` fails earlier on empty input
(`s.max()` on a zero-size array); `from_npz` with a zero shape and
`from_ngt_index` over an empty index reduce to those two.  In general
the constructor succeeds exactly when the row count is positive. -/
theorem construction_requires_node :
    (∀ es b, CSRKNN.ofCsr 0 es b = none)
    ∧ (∀ w, CSRKNN.from_edge_list [] [] w = none)
    ∧ (∀ es b, CSRKNN.from_npz es 0 b = none)
    ∧ (∀ (search : ℕ → ℕ → List (ℕ × ℚ)) k b,
        CSRKNN.from_ngt_index ⟨0, search⟩ k b = none)
    ∧ (∀ n es b, (CSRKNN.ofCsr n es b).isSome ↔ 0 < n) := by
  refine ⟨?_, ?_, ?_, ?_, ?_⟩
  · intro es b
    simp [CSRKNN.ofCsr]
  · intro w
    simp [CSRKNN.from_edge_list]
  · intro es b
    unfold CSRKNN.from_npz
    by_cases h : ∀ e ∈ es, e.1 < 0 ∧ e.2.1 < 0
    · rw [if_pos h]
      simp [CSRKNN.ofCsr]
    · rw [if_neg h]
  · intro search k b
    unfold CSRKNN.from_ngt_index
    simp [CSRKNN.from_edge_list]
  · intro n es b
    unfold CSRKNN.ofCsr
    by_cases h : 0 < n
    · simp [h]
    · simp [h]

/-- C10: `to_edge_list` enumerates each row through `neighbors` with its
default `exclude_self_loops=True`, so no exported triple is a self-loop,
while `n_edges` (`csr.nnz`) counts every stored entry, self-loops
included. -/
theorem to_edge_list_omits_self_loops (A : CSRKNN) (b : Bool) :
    (∀ e ∈ A.to_edge_list b, e.2.1 ≠ e.1) ∧ A.n_edges = A.entries.length := by
  refine ⟨?_, rfl⟩
  intro e he
  unfold CSRKNN.to_edge_list at he
  rw [List.mem_flatMap] at he
  obtain ⟨i, hi, he2⟩ := he
  rw [List.mem_map] at he2
  obtain ⟨p, hp, rfl⟩ := he2
  simp only [ne_eq]
  intro hcontra
  unfold neighborsList at hp
  simp only [if_pos rfl, Bool.if_true_left] at hp
  have hp2 : p ∈ (rowEntries A.entries i).filter (fun p => p.1 != i) := by
    simpa using hp
  have := List.of_mem_filter hp2
  simp only [bne_iff_ne, ne_eq] at this
  exact this hcontra

theorem to_edge_list_omits_self_loops_witness :
    ((0, 1, q910) : Entry).2.1 ≠ ((0, 1, q910) : Entry).1 :=
  (to_edge_list_omits_self_loops AW10 false).1 (0, 1, q910) (by decide)

theorem cooToCsr_keys (es : List Entry) :
    (cooToCsr es).map entryKey = List.insertionSort keyLe ((es.map entryKey).dedup) := by
  unfold cooToCsr
  rw [List.map_map]
  have hcongr : ∀ k ∈ List.insertionSort keyLe ((es.map entryKey).dedup),
      (entryKey ∘ (fun k => ((k.1, k.2,
        ((es.filter (fun x => entryKey x == k)).map (fun x => x.2.2)).sum) : Entry))) k
        = id k := fun k hk => rfl
  rw [List.map_congr_left hcongr, List.map_id]

theorem cooToCsr_keys_nodup (es : List Entry) : ((cooToCsr es).map entryKey).Nodup := by
  rw [cooToCsr_keys]
  exact (List.perm_insertionSort keyLe ((es.map entryKey).dedup)).nodup_iff.mpr
    (List.nodup_dedup _)

theorem mem_cooToCsr_of_key (es : List Entry) (r c : ℕ)
    (hk : (r, c) ∈ es.map entryKey) :
    ((r, c, ((es.filter (fun x => entryKey x == (r, c))).map (fun x => x.2.2)).sum) : Entry)
      ∈ cooToCsr es := by
  unfold cooToCsr
  have hmem : (r, c) ∈ List.insertionSort keyLe ((es.map entryKey).dedup) :=
    (List.perm_insertionSort keyLe _).mem_iff.mpr (List.mem_dedup.mpr hk)
  exact List.mem_map_of_mem _ hmem

theorem find?_key (l : List Entry) (hnd : (l.map entryKey).Nodup) (r c : ℕ) (v : ℚ)
    (hm : ((r, c, v) : Entry) ∈ l) :
    l.find? (fun x => x.1 == r && x.2.1 == c) = some (r, c, v) := by
  induction l with
  | nil => cases hm
  | cons a l2 ih =>
    rw [List.map_cons, List.nodup_cons] at hnd
    obtain ⟨hna, hnd2⟩ := hnd
    by_cases hpa : (fun x : Entry => x.1 == r && x.2.1 == c) a = true
    · rw [List.find?_cons_of_pos l2 hpa]
      rcases List.mem_cons.mp hm with heq | hm2
      · rw [← heq]
      · exfalso
        simp only [Bool.and_eq_true, beq_iff_eq] at hpa
        refine hna ?_
        have hkey : entryKey a = (r, c) := by
          unfold entryKey
          rw [hpa.1, hpa.2]
        rw [hkey]
        have hrc : entryKey ((r, c, v) : Entry) = (r, c) := rfl
        exact hrc ▸ List.mem_map_of_mem entryKey hm2
    · rw [List.find?_cons_of_neg l2 hpa]
      rcases List.mem_cons.mp hm with heq | hm2
      · exfalso
        apply hpa
        rw [← heq]
        simp
      · exact ih hnd2 hm2

theorem find?_oneMinusData (l : List Entry) (r c : ℕ) :
    (oneMinusData l).find? (fun x => x.1 == r && x.2.1 == c)
      = (l.find? (fun x => x.1 == r && x.2.1 == c)).map
          (fun e => ((e.1, e.2.1, oneMinusVal e.2.2) : Entry)) := by
  induction l with
  | nil => rfl
  | cons a l2 ih =>
    show (((a.1, a.2.1, oneMinusVal a.2.2) : Entry) :: oneMinusData l2).find? _ = _
    by_cases hpa : (fun x : Entry => x.1 == r && x.2.1 == c) a = true
    · rw [List.find?_cons_of_pos (oneMinusData l2)
        (show (fun x : Entry => x.1 == r && x.2.1 == c)
          ((a.1, a.2.1, oneMinusVal a.2.2) : Entry) = true from hpa),
        List.find?_cons_of_pos l2 hpa]
      rfl
    · rw [List.find?_cons_of_neg (oneMinusData l2)
        (show ¬ (fun x : Entry => x.1 == r && x.2.1 == c)
          ((a.1, a.2.1, oneMinusVal a.2.2) : Entry) = true from hpa),
        List.find?_cons_of_neg l2 hpa]
      exact ih

/-- C4 (amended): duplicate `(source, target)` pairs are not resolved by
last-write-wins: `csr_matrix((w, (s, t)))` sums them.  The stored weight
at such a key is the one-minus transform (with the constructor's
positive-mask) of the SUM of all weights given for that key. -/
theorem from_edge_list_sums_duplicates (s t : List ℕ) (w : List ℚ) (r c : ℕ)
    (h1 : s.length = t.length) (h2 : t.length = w.length) (h3 : s ≠ [])
    (hkey : (r, c) ∈ (s.zip (t.zip w)).map entryKey) :
    ∃ A, CSRKNN.from_edge_list s t w = some A
      ∧ A.entryAt r c = some (oneMinusVal
          ((((s.zip (t.zip w)).filter (fun e => entryKey e == (r, c))).map
            (fun e => e.2.2)).sum)) := by
  unfold CSRKNN.from_edge_list
  rw [if_pos ⟨h1, h2, h3⟩]
  unfold CSRKNN.ofCsr
  rw [if_pos (Nat.succ_pos _)]
  refine ⟨_, rfl, ?_⟩
  unfold CSRKNN.entryAt
  simp only [if_true]
  rw [find?_oneMinusData]
  rw [find?_key (cooToCsr (s.zip (t.zip w))) (cooToCsr_keys_nodup _) r c _
    (mem_cooToCsr_of_key (s.zip (t.zip w)) r c hkey)]
  rfl

/-- C4 counterexample: two duplicate triples `(0, 1, 1/4)`.  The store
holds `1/2` at `(0, 1)` — the transform of the sum `1/4 + 1/4` — which
is neither the later duplicate's raw weight `1/4` nor its transformed
value `3/4`: last-write-wins does not describe the construction. -/
theorem from_edge_list_sums_duplicates_cex :
    entryAtOpt (CSRKNN.from_edge_list [0, 0] [1, 1] [q14, q14]) 0 1 = some qhalf
    ∧ qhalf ≠ q14 ∧ qhalf ≠ 1 - q14 := by
  refine ⟨?_, by decide, by with_unfolding_all decide⟩
  with_unfolding_all decide

theorem from_edge_list_sums_duplicates_witness :
    entryAtOpt (CSRKNN.from_edge_list [0, 0] [1, 1] [q14, q14]) 0 1
      = some (oneMinusVal ([q14, q14] : List ℚ).sum) := by
  obtain ⟨A, hA, hE⟩ := from_edge_list_sums_duplicates [0, 0] [1, 1] [q14, q14] 0 1
    (by decide) (by decide) (by decide) (by decide)
  unfold entryAtOpt
  rw [hA]
  show A.entryAt 0 1 = _
  rw [hE]
  with_unfolding_all decide

theorem zip_map_fst_snd (l : List (ℕ × ℚ)) :
    (l.map Prod.fst).zip (l.map Prod.snd) = l := by
  induction l with
  | nil => rfl
  | cons a l ih => simp [List.zip_cons_cons, ih]

theorem rowEntries_oneMinusData (l : List Entry) (i : ℕ) :
    rowEntries (oneMinusData l) i
      = (rowEntries l i).map (fun p => (p.1, oneMinusVal p.2)) := by
  unfold rowEntries oneMinusData
  induction l with
  | nil => rfl
  | cons a l ih =>
    by_cases h : a.1 = i
    · simp only [List.map_cons, List.filter_cons, h, beq_self_eq_true, if_pos]
      simpa using ih
    · simp only [List.map_cons, List.filter_cons]
      rw [if_neg (by simpa using h), if_neg (by simpa using h)]
      exact ih

theorem filter_col_map_oneMinus (l : List (ℕ × ℚ)) (i : ℕ) :
    (l.map (fun p => ((p.1, oneMinusVal p.2) : ℕ × ℚ))).filter (fun p => p.1 != i)
      = (l.filter (fun p => p.1 != i)).map (fun p => (p.1, oneMinusVal p.2)) := by
  induction l with
  | nil => rfl
  | cons a l ih =>
    by_cases h : a.1 = i
    · simp only [List.map_cons, List.filter_cons]
      rw [if_neg (by simpa using h), if_neg (by simpa using h)]
      exact ih
    · simp only [List.map_cons, List.filter_cons]
      rw [if_pos (by simpa using h), if_pos (by simpa using h)]
      simpa using ih

theorem rowEntries_filter_eq (T : List Entry) (i : ℕ) :
    (rowEntries T i).filter (fun p => p.1 != i)
      = (T.filter (fun e => e.1 == i && e.2.1 != i)).map
          (fun e => ((e.2.1, e.2.2) : ℕ × ℚ)) := by
  unfold rowEntries
  induction T with
  | nil => rfl
  | cons a T ih =>
    simp only [List.filter_cons]
    by_cases hrow : a.1 = i
    · by_cases hcol : a.2.1 = i
      · rw [if_pos (by simpa using hrow)]
        simp only [List.map_cons, List.filter_cons]
        rw [if_neg (by simpa using hcol),
          if_neg (by simp [hrow, hcol])]
        exact ih
      · rw [if_pos (by simpa using hrow)]
        simp only [List.map_cons, List.filter_cons]
        rw [if_pos (by simpa using hcol),
          if_pos (by simp [hrow, hcol])]
        simpa using ih
    · rw [if_neg (by simpa using hrow), if_neg (by simp [hrow])]
      exact ih

/-- C3 (amended): `from_edge_list` constructs the store with the
constructor's default `one_minus_weights=True`, so `neighbors(i)` does
NOT return the raw `w` values: on an input with pairwise-distinct
`(s, t)` keys it returns, as a multiset and hence independently of the
input order, exactly the pairs `(t[j], oneMinusVal w[j])` over the
positions `j` with `s[j] = i` and `t[j] ≠ i` (self-loops excluded by the
query's default). -/
theorem from_edge_list_neighbors (s t : List ℕ) (w : List ℚ) (i : ℕ)
    (h1 : s.length = t.length) (h2 : t.length = w.length) (h3 : s ≠ [])
    (hnd : ((s.zip (t.zip w)).map entryKey).Nodup) :
    ∃ A, CSRKNN.from_edge_list s t w = some A
      ∧ (((A.neighbors i).1.zip (A.neighbors i).2 : List (ℕ × ℚ)) : Multiset (ℕ × ℚ))
        = ((((s.zip (t.zip w)).filter (fun e => e.1 == i && e.2.1 != i)).map
            (fun e => ((e.2.1, oneMinusVal e.2.2) : ℕ × ℚ)) : List (ℕ × ℚ))
            : Multiset (ℕ × ℚ)) := by
  unfold CSRKNN.from_edge_list
  rw [if_pos ⟨h1, h2, h3⟩]
  unfold CSRKNN.ofCsr
  rw [if_pos (Nat.succ_pos _)]
  refine ⟨_, rfl, ?_⟩
  simp only [if_true]
  rw [Multiset.coe_eq_coe]
  unfold CSRKNN.neighbors
  rw [zip_map_fst_snd]
  unfold neighborsList
  simp only [if_true]
  refine (List.perm_insertionSort _ _).trans ?_
  rw [rowEntries_oneMinusData, filter_col_map_oneMinus]
  have hperm : List.Perm
      ((rowEntries (cooToCsr (s.zip (t.zip w))) i).filter (fun p => p.1 != i))
      ((rowEntries (s.zip (t.zip w)) i).filter (fun p => p.1 != i)) := by
    unfold rowEntries
    exact (((cooToCsr_of_nodup_keys _ hnd).filter _).map _).filter _
  refine (hperm.map _).trans ?_
  rw [rowEntries_filter_eq, List.map_map]
  exact List.Perm.of_eq (List.map_congr_left (fun e he => rfl))

/-- C3 counterexample: one triple `(0, 1, 1/4)`.  `neighbors(0)` returns
the weight `3/4` (the constructor's default one-minus transform was
applied), not the input weight `1/4`. -/
theorem from_edge_list_neighbors_cex :
    neighborsOpt (CSRKNN.from_edge_list [0] [1] [q14]) 0 = some ([1], [q34])
    ∧ q34 ≠ q14 := by
  refine ⟨?_, by decide⟩
  with_unfolding_all decide

theorem from_edge_list_neighbors_witness :
    neighborsMultisetOpt (CSRKNN.from_edge_list [0, 0] [1, 2] [q14, qhalf]) 0
      = (([(1, q34), (2, qhalf)] : List (ℕ × ℚ)) : Multiset (ℕ × ℚ)) := by
  obtain ⟨A, hA, hm⟩ := from_edge_list_neighbors [0, 0] [1, 2] [q14, qhalf] 0
    (by decide) (by decide) (by decide) (by decide)
  unfold neighborsMultisetOpt
  rw [hA]
  show (((A.neighbors 0).1.zip (A.neighbors 0).2 : List (ℕ × ℚ)) : Multiset (ℕ × ℚ)) = _
  rw [hm]
  with_unfolding_all decide

/-- C6: round trip through the archive.  Saving a store `S` writes its
COO triples and shape; loading any reordering of those triples (with the
default `one_minus_weights=False`) restores a store with exactly the
same stored entries, the same `n_nodes`, and the same `n_edges` — the
result does not depend on the on-disk row order. -/
theorem from_npz_to_npz_roundtrip (A : CSRKNN) (es : List Entry)
    (h0 : 0 < A.n_nodes)
    (hc : List.Pairwise (fun a b => keyLt (entryKey a) (entryKey b)) A.entries)
    (hb : ∀ e ∈ A.entries, e.1 < A.n_nodes ∧ e.2.1 < A.n_nodes)
    (hp : es.Perm (A.to_npz).1) :
    ∃ B, CSRKNN.from_npz es (A.to_npz).2 false = some B
      ∧ B.entries = A.entries ∧ B.n_nodes = A.n_nodes ∧ B.n_edges = A.n_edges := by
  unfold CSRKNN.from_npz CSRKNN.to_npz
  have hb2 : ∀ e ∈ es, e.1 < A.n_nodes ∧ e.2.1 < A.n_nodes :=
    fun e he => hb e (hp.mem_iff.mp he)
  rw [if_pos hb2]
  unfold CSRKNN.ofCsr
  rw [if_pos h0]
  have hcoo : cooToCsr es = A.entries := by
    rw [cooToCsr_perm hp]
    exact cooToCsr_of_canonical A.entries hc
  refine ⟨_, rfl, ?_, rfl, ?_⟩
  · simpa using hcoo
  · unfold CSRKNN.n_edges
    simpa using congrArg List.length hcoo

theorem from_npz_to_npz_roundtrip_witness :
    (CSRKNN.from_npz [(1, 0, qhalf), (0, 1, q14)] 2 false).map CSRKNN.entries
      = some [(0, 1, q14), (1, 0, qhalf)] := by
  obtain ⟨B, h1, h2, h3, h4⟩ := from_npz_to_npz_roundtrip AW6
    [(1, 0, qhalf), (0, 1, q14)] (by decide) (by decide) (by decide) (by decide)
  rw [show (2 : ℕ) = (AW6.to_npz).2 from rfl, h1]
  simp [h2, AW6]

/-- C2: on a graph whose edges stay inside `[0, vcount)` (igraph
guarantees this), the clusters returned by `condense_dreams_knn` form a
partition of the node set: every node id below `vcount` occurs in
exactly one cluster, and nothing else occurs. -/
theorem partition_of_condense_dreams_knn (g : WGraph) (thld : ℚ) (sim : ℕ → ℕ → ℚ)
    (hE : ∀ e ∈ g.edges, e.1 < g.vcount ∧ e.2.1 < g.vcount) :
    ∀ x, (condense_dreams_knn g thld sim).flatten.count x
      = if x < g.vcount then 1 else 0 :=
  condense_partition g thld sim hE

theorem partition_witness : (condense_dreams_knn gW1 qhalf simW).flatten.count 1 = 1 := by
  have h := partition_of_condense_dreams_knn gW1 qhalf simW (by decide) 1
  rw [if_pos (by decide)] at h
  exact h
